import Mathlib

/-
Verification of the lr retrieval engine (Go sources under src/) against its
natural-language specification.

Modelling conventions, used consistently below:
* A Go `string` is modelled as `List Char` (abbreviated `Str`); Go's `len` on
  strings and `strings.Builder.Len` count UTF-8 bytes, modelled by `byteLen`.
* Go `float64` is modelled as `ℝ` (exact real arithmetic; the program performs
  no NaN/Inf-dependent branching on the paths verified here).
* Go slices are Lean lists; `append` is `++`.
* Go maps used as dictionaries are modelled as association lists with a
  `mapSet` update mirroring `m[k] = v`; Go map iteration order is randomized,
  so every theorem below about map-derived lists is stated order-insensitively.
* File contents are `List Nat` (bytes); the filesystem is a partial map from
  path to contents.  JSON and gzip are external library collaborators and
  enter as function parameters; theorems that need their round-trip contracts
  take them as explicit hypotheses.
-/

namespace LR

/-- Shorthand for the model of a Go string. -/
abbrev Str := List Char

/-- Convert a Lean string literal to the `Str` model. -/
def str (s : String) : Str := s.data

/-- Go `len(s)` / `strings.Builder.Len()`: the UTF-8 byte length. -/
def byteLen (s : Str) : Nat := (s.map Char.utf8Size).sum

/-- Model of Go `unicode.IsSpace` restricted to the Latin-1 range that the
sources ever feed it (ASCII whitespace plus NEL and NBSP). -/
def goIsSpace (c : Char) : Bool :=
  c = ' ' || c = '\t' || c = '\n' || c = Char.ofNat 11 || c = Char.ofNat 12 ||
  c = '\r' || c = Char.ofNat 133 || c = Char.ofNat 160

/-- Go `strings.TrimSpace`: drop leading and trailing whitespace. -/
def trimSpace (s : Str) : Str :=
  ((s.dropWhile goIsSpace).reverse.dropWhile goIsSpace).reverse

/-- Go `strings.Split(s, "\n\n")`: split on each non-overlapping occurrence
of a blank line separator, scanning left to right. -/
def splitNN : Str → List Str
  | [] => [[]]
  | '\n' :: '\n' :: rest => [] :: splitNN rest
  | c :: rest =>
    match splitNN rest with
    | [] => [[c]]
    | h :: t => (c :: h) :: t

/-- Go `strings.Contains(s, sub)`. -/
def hasSub : Str → Str → Bool
  | [], sub => sub.isEmpty
  | c :: t, sub => sub.isPrefixOf (c :: t) || hasSub t sub

/-- Go `strings.Replace(s, old, new, 1)` for the non-empty `old` the sources
use: replace the first occurrence of `old` in `s` by `nw`. -/
def replaceFirst : Str → Str → Str → Str
  | [], old, nw => if old.isEmpty then nw else []
  | c :: t, old, nw =>
    if old.isPrefixOf (c :: t) then nw ++ (c :: t).drop old.length
    else c :: replaceFirst t old nw

/-- Go `strings.ToLower` on the ASCII paths the sources compare. -/
def toLowerStr (s : Str) : Str := s.map Char.toLower

/-- Go `strings.Count(s, sep)` for a one-character `sep`. -/
def countChar (s : Str) (c : Char) : Nat := (s.filter (fun d => d = c)).length

/-- Association-list lookup modelling a Go map read `m[k]` (the `ok` form). -/
def mapGet (m : List (Str × Str)) (k : Str) : Option Str :=
  (m.find? (fun kv => kv.1 = k)).map (fun kv => kv.2)

/-- Association-list lookup modelling a Go map read `m[k]` that yields the
zero value `""` on a missing key. -/
def mapGetD (m : List (Str × Str)) (k : Str) : Str := (mapGet m k).getD []

/-- Association-list update modelling a Go map write `m[k] = v`. -/
def mapSet (m : List (Str × Str)) (k v : Str) : List (Str × Str) :=
  if m.any (fun kv => kv.1 = k) then
    m.map (fun kv => if kv.1 = k then (k, v) else kv)
  else
    m ++ [(k, v)]

/-- src/chunker.go: `Chunk` — a text chunk with metadata. -/
structure Chunk where
  Text : Str
  Source : Str
  Metadata : List (Str × Str)
deriving DecidableEq

/-- src/vectorstore.go: `SkippedFile`. -/
structure SkippedFile where
  Path : Str
  Reason : Str
  Size : Int
deriving DecidableEq

/-- src/vectorstore.go: `VectorStoreMetadata`.  The `LastCommit` field is
read and written by src/main.go (`vs.Metadata.LastCommit`); its declaration
is in a part of the repository not present under src/, so it is included
here as the spec describes it (optional recorded commit hash). -/
structure VectorStoreMetadata where
  IndexedAt : Str
  SourcePath : Str
  FileCount : Int
  ChunkCount : Int
  IndexedFiles : List Str
  SkippedFiles : List SkippedFile
  LastCommit : Str
deriving DecidableEq

/-- src/vectorstore.go: `VectorStore` — chunks plus parallel embeddings. -/
structure VectorStore where
  Chunks : List Chunk
  Embeddings : List (List ℝ)
  Metadata : VectorStoreMetadata

/-- src/vectorstore.go: `SearchResult`. -/
structure SearchResult where
  Chunk : Chunk
  Similarity : ℝ

/-- Zero value of `VectorStoreMetadata` (Go zero value of the struct). -/
def VectorStoreMetadata.empty : VectorStoreMetadata :=
  { IndexedAt := [], SourcePath := [], FileCount := 0, ChunkCount := 0,
    IndexedFiles := [], SkippedFiles := [], LastCommit := [] }

/-- src/vectorstore.go: `NewVectorStore`. -/
def NewVectorStore : VectorStore :=
  { Chunks := [], Embeddings := [], Metadata := VectorStoreMetadata.empty }

/-- src/vectorstore.go: `Add` — append the chunk and its embedding to the two
parallel arrays. -/
def VectorStore.Add (vs : VectorStore) (chunk : Chunk) (embedding : List ℝ) :
    VectorStore :=
  { vs with Chunks := vs.Chunks ++ [chunk],
            Embeddings := vs.Embeddings ++ [embedding] }

/-- Sum of squares of a vector's entries, as accumulated by the loop in
src/vectorstore.go `cosineSimilarity` (`normA += a[i]*a[i]`). -/
def sumSquares (v : List ℝ) : ℝ := (v.map (fun x => x * x)).sum

/-- Dot product as accumulated by the same loop (`dotProduct += a[i]*b[i]`). -/
def dotProduct (a b : List ℝ) : ℝ := ((a.zip b).map (fun p => p.1 * p.2)).sum

/-- src/vectorstore.go: `cosineSimilarity` — 0 on dimension mismatch, 0 when
either norm is zero, else `dot/(‖a‖·‖b‖)`. -/
noncomputable def cosineSimilarity (a b : List ℝ) : ℝ :=
  if a.length ≠ b.length then 0
  else if sumSquares a = 0 ∨ sumSquares b = 0 then 0
  else dotProduct a b / (Real.sqrt (sumSquares a) * Real.sqrt (sumSquares b))

/-- Comparison used by the `sort.Slice` calls in src/vectorstore.go `Search`
and the multi-source search: descending by similarity.  `simGE a b` holds
when `a` may come no later than `b`. -/
def simGE (a b : SearchResult) : Prop := b.Similarity ≤ a.Similarity

noncomputable instance : DecidableRel simGE :=
  fun a b => Real.decidableLE b.Similarity a.Similarity

instance : IsTotal SearchResult simGE :=
  ⟨fun a b => le_total b.Similarity a.Similarity⟩

instance : IsTrans SearchResult simGE :=
  ⟨fun _ _ _ h1 h2 => le_trans h2 h1⟩

/-- src/vectorstore.go: `Search` — score every (chunk, embedding) pair against
the query, sort descending by similarity, return the first
`min(topK, count)` results.  The Go loop ranges over `Embeddings` and reads
`Chunks[i]` at the same index, which is the `zip` below; `sort.Slice` is an
unspecified sorted permutation, modelled by insertion sort; the final
`results[:topK]` after the clamp `topK = min(topK, len)` is `take topK`. -/
noncomputable def VectorStore.Search (vs : VectorStore) (queryEmbedding : List ℝ)
    (topK : Nat) : List SearchResult :=
  let results := (vs.Chunks.zip vs.Embeddings).map
    (fun ce => { Chunk := ce.1, Similarity := cosineSimilarity queryEmbedding ce.2 })
  (List.insertionSort simGE results).take topK

/-- Modelled from the spec: `RemoveBySource` is called by src/main.go and by
the watch-mode code but its definition is in a repository file missing from
src/.  Per the spec it removes every (chunk, embedding) pair whose
`chunk.Source` is in `paths`, returns the removed count, and preserves the
pairing and relative order of the surviving entries. -/
def VectorStore.RemoveBySource (vs : VectorStore) (paths : List Str) :
    VectorStore × Nat :=
  let pairs := vs.Chunks.zip vs.Embeddings
  let kept := pairs.filter (fun p => ¬ paths.contains p.1.Source)
  ({ vs with Chunks := kept.map Prod.fst, Embeddings := kept.map Prod.snd },
   pairs.length - kept.length)

/-- File contents: a byte sequence. -/
abbrev Bytes := List Nat

/-- The filesystem model: a partial map from path to file contents. -/
abbrev FS := Str → Option Bytes

/-- Write (create or overwrite) a file. -/
def fsWrite (fs : FS) (path : Str) (data : Bytes) : FS :=
  fun p => if p = path then some data else fs p

/-- Go `os.Remove`. -/
def fsRemove (fs : FS) (path : Str) : FS :=
  fun p => if p = path then none else fs p

/-- Go `os.Rename(src, dst)`: `dst` now holds what `src` held; `src` is gone. -/
def fsRename (fs : FS) (src dst : Str) : FS :=
  fun p => if p = dst then fs src else if p = src then none else fs p

/-- The compressed-index suffix `".lrindex"`. -/
def lrSuffix : Str := str ".lrindex"

/-- The bytes src/vectorstore.go `Save` writes for `vs` at `path`:
`json.Marshal` output, gzip-compressed iff the path has the `.lrindex`
suffix.  `jsonEncode` (the `json.Marshal` collaborator) and `gzipC` (the
gzip writer) are parameters. -/
def savedBytes (jsonEncode : VectorStore → Bytes) (gzipC : Bytes → Bytes)
    (vs : VectorStore) (path : Str) : Bytes :=
  if lrSuffix.isSuffixOf path then gzipC (jsonEncode vs) else jsonEncode vs

/-- src/vectorstore.go: `Save` — marshal, compress iff `.lrindex`, write. -/
def VectorStore.SaveFS (jsonEncode : VectorStore → Bytes) (gzipC : Bytes → Bytes)
    (vs : VectorStore) (path : Str) (fs : FS) : FS :=
  fsWrite fs path (savedBytes jsonEncode gzipC vs path)

/-- src/vectorstore.go: `Load` — if the path has the `.lrindex` suffix,
gunzip then unmarshal; otherwise sniff the two gzip magic bytes
`0x1f 0x8b` (only when the file has at least two bytes) and gunzip on a
match; otherwise unmarshal the raw bytes.  `jsonDecode` is the
`json.Unmarshal` collaborator and `gzipD` the gzip reader; either may fail,
as may the initial open. -/
def VectorStore.LoadFS (jsonDecode : Bytes → Option VectorStore)
    (gzipD : Bytes → Option Bytes) (path : Str) (fs : FS) :
    Option VectorStore :=
  match fs path with
  | none => none
  | some data =>
    if lrSuffix.isSuffixOf path then (gzipD data).bind jsonDecode
    else
      match data with
      | b0 :: b1 :: _ =>
        if b0 = 31 ∧ b1 = 139 then (gzipD data).bind jsonDecode
        else jsonDecode data
      | _ => jsonDecode data

/-- src/unnamed/part_006 `atomicSave`: the temp path — replace the first
`.lrindex` by `.tmp.lrindex` when the final path has the suffix, else
append `.tmp`. -/
def tempPathOf (finalPath : Str) : Str :=
  if lrSuffix.isSuffixOf finalPath then
    replaceFirst finalPath lrSuffix (str ".tmp.lrindex")
  else finalPath ++ str ".tmp"

/-- Outcome of `atomicSave`: success, or one of its error returns. -/
inductive AtomicSaveOutcome
  | ok
  | loadFailed
  | countMismatch
deriving DecidableEq

/-- src/unnamed/part_006: `atomicSave` — save to the temp path, reload it
into a scratch store, compare chunk counts, and only then rename over the
final path; on a validation failure remove the temp file and report the
error.  (The in-model `Save` and `Rename` always succeed, so the
`failed to save temp file` and `failed to rename` returns do not arise;
the two validation failures are the outcomes the claim is about.) -/
def atomicSave (jsonEncode : VectorStore → Bytes) (gzipC : Bytes → Bytes)
    (jsonDecode : Bytes → Option VectorStore) (gzipD : Bytes → Option Bytes)
    (vs : VectorStore) (finalPath : Str) (fs : FS) : FS × AtomicSaveOutcome :=
  let tempPath := tempPathOf finalPath
  let fs1 := vs.SaveFS jsonEncode gzipC tempPath fs
  match VectorStore.LoadFS jsonDecode gzipD tempPath fs1 with
  | none => (fsRemove fs1 tempPath, .loadFailed)
  | some testVs =>
    if testVs.Chunks.length ≠ vs.Chunks.length then
      (fsRemove fs1 tempPath, .countMismatch)
    else
      (fsRename fs1 tempPath finalPath, .ok)

/-- A concrete serializer collaborator producing a single byte, for
exercising the persistence layer on concrete runs. -/
def constEncode : VectorStore → Bytes := fun _ => [123]

/-- A decoder collaborator that always fails (a corrupt temp file). -/
def failDecode : Bytes → Option VectorStore := fun _ => none

/-- A gunzip collaborator that always fails. -/
def failGunzip : Bytes → Option Bytes := fun _ => none

/-- A decoder collaborator that always yields the empty store. -/
def constDecode : Bytes → Option VectorStore := fun _ => some NewVectorStore

/-- A compressor collaborator prefixing the gzip magic bytes. -/
def magicGzip : Bytes → Bytes := fun d => 31 :: 139 :: d

/-- The matching decompressor: strip the magic bytes, failing otherwise. -/
def magicGunzip : Bytes → Option Bytes := fun d =>
  match d with
  | 31 :: 139 :: t => some t
  | _ => none

/-- The empty filesystem. -/
def emptyFS : FS := fun _ => none

/-- src/unnamed/part_006: `ChangeSet`. -/
structure ChangeSet where
  Added : List Str
  Modified : List Str
  Deleted : List Str
deriving DecidableEq

/-- src/unnamed/part_006: `hasMatchingExtension` — some extension in the
allow-list is a suffix of the lower-cased path. -/
def hasMatchingExtension (path : Str) (extensions : List Str) : Bool :=
  extensions.any (fun ext => ext.isSuffixOf (toLowerStr path))

/-- One file the directory walk of `detectChangesMtime` reaches (the walk
already pruned the skipped directories); `path` is the path relative to the
root and `mtime` the modification time, `time.Time` modelled as `Int` with
`After` as `>`. -/
structure WalkEntry where
  path : Str
  mtime : Int
deriving DecidableEq

/-- The walk loop of src/unnamed/part_006 `detectChangesMtime`, processing
entries in walk order: a file that fails the extension filter is ignored;
a previously indexed file is marked still-existing and goes to Modified
when its mtime is after the recorded index time; an unindexed file goes to
Added.  Returns (added, modified, stillExists). -/
def mtimeScan (indexedAt : Int) (indexedFiles : List Str)
    (extensions : List Str) : List WalkEntry → List Str × List Str × List Str
  | [] => ([], [], [])
  | e :: rest =>
    let r := mtimeScan indexedAt indexedFiles extensions rest
    if ¬ hasMatchingExtension e.path extensions then r
    else if indexedFiles.contains e.path then
      (r.1, (if e.mtime > indexedAt then [e.path] else []) ++ r.2.1,
       e.path :: r.2.2)
    else (e.path :: r.1, r.2.1, r.2.2)

/-- src/unnamed/part_006: `detectChangesMtime` — classify the walked files
against the recorded indexed-file list and index time, then collect every
recorded file not seen in the walk as Deleted.  Go ranges over the
`indexedSet` map (randomized order); the model ranges over the recorded
list with duplicates removed, which has the same membership. -/
def detectChangesMtime (walk : List WalkEntry) (indexedAt : Int)
    (indexedFiles : List Str) (extensions : List Str) : ChangeSet :=
  let (added, modified, stillExists) :=
    mtimeScan indexedAt indexedFiles extensions walk
  { Added := added, Modified := modified,
    Deleted := indexedFiles.dedup.filter (fun f => ¬ stillExists.contains f) }

/-- The `Sources` map of src/unnamed/part_005 `MultiSourceStore`, modelled
as an association list (name, store). -/
abbrev SourcesMap := List (Str × VectorStore)

/-- Go `m.Sources[name]` (the `ok` form). -/
def lookupStore (m : SourcesMap) (name : Str) : Option VectorStore :=
  (m.find? (fun kv => kv.1 = name)).map (fun kv => kv.2)

/-- The source names `MultiSourceStore.Search` actually searches: all map
keys when `names` is empty, else the given names with the ones missing from
the map skipped (`if !ok { continue }`). -/
def searchedNames (m : SourcesMap) (names : List Str) : List Str :=
  (if names.isEmpty then m.map (fun kv => kv.1) else names).filter
    (fun nm => (lookupStore m nm).isSome)

/-- src/unnamed/part_005: `MultiSourceStore.Search` — search each selected
source with the same `topK`, tag each result's chunk metadata with
`"vector_source" = name`, concatenate, sort the union descending by
similarity, and return the first `min(topK, total)` results.  (The Go
tagging writes through the shared metadata map — that aliasing is analysed
separately by the heap model below; this value-level model describes the
returned results.) -/
noncomputable def msSearch (m : SourcesMap) (queryEmbedding : List ℝ)
    (topK : Nat) (names : List Str) : List SearchResult :=
  let allResults := (searchedNames m names).flatMap (fun nm =>
    match lookupStore m nm with
    | none => []
    | some vs =>
      (vs.Search queryEmbedding topK).map (fun r =>
        { r with Chunk :=
            { r.Chunk with
                Metadata := mapSet r.Chunk.Metadata (str "vector_source") nm } }))
  (List.insertionSort simGE allResults).take topK

/-- A store mutation: the two operations the spec's alignment invariant
quantifies over. -/
inductive StoreOp
  | add (chunk : Chunk) (embedding : List ℝ)
  | removeBySource (paths : List Str)

/-- Apply one mutation. -/
def applyOp (vs : VectorStore) : StoreOp → VectorStore
  | .add c e => vs.Add c e
  | .removeBySource ps => (vs.RemoveBySource ps).1

/-- Apply a sequence of mutations, oldest first. -/
def applyOps (ops : List StoreOp) (vs : VectorStore) : VectorStore :=
  ops.foldl applyOp vs

/-- src/unnamed/part_006: `Document`. -/
structure Document where
  Content : Str
  Source : Str
  Metadata : List (Str × Str)

/-- src/chunker.go: `splitByHeaders` — cut before each line whose trimmed
text starts with `#`; sections are trimmed on emission; each line is
re-appended with its newline. -/
def splitByHeaders (content : Str) : List Str :=
  let lines := List.splitOn '\n' content
  let fin := lines.foldl (fun (st : List Str × Str) line =>
    let st1 :=
      if (str "#").isPrefixOf (trimSpace line) = true ∧ 0 < byteLen st.2 then
        (st.1 ++ [trimSpace st.2], ([] : Str))
      else st
    (st1.1, st1.2 ++ line ++ ['\n'])) ([], [])
  if 0 < byteLen fin.2 then fin.1 ++ [trimSpace fin.2] else fin.1

/-- One iteration of the src/chunker.go `splitByParagraphs` loop, on the
state (chunks so far, current accumulator): flush the accumulator before a
paragraph that would push it past `maxSize`; append the paragraph and a
blank line; flush immediately whenever the accumulator now exceeds
`maxSize` (the single-oversized-paragraph case). -/
def sppStep (maxSize : Nat) (st : List Str × Str) (para : Str) :
    List Str × Str :=
  let st1 :=
    if byteLen st.2 + byteLen para + 2 > maxSize ∧ 0 < byteLen st.2 then
      (st.1 ++ [trimSpace st.2], ([] : Str))
    else st
  let cur := st1.2 ++ para ++ ['\n', '\n']
  if byteLen cur > maxSize then (st1.1 ++ [trimSpace cur], ([] : Str))
  else (st1.1, cur)

/-- src/chunker.go: `splitByParagraphs` — accumulate blank-line separated
paragraphs via `sppStep`, then flush the non-empty remainder. -/
def splitByParagraphs (content : Str) (maxSize : Nat) : List Str :=
  let fin := (splitNN content).foldl (sppStep maxSize) ([], [])
  if 0 < byteLen fin.2 then fin.1 ++ [trimSpace fin.2] else fin.1

/-- src/chunker.go: `splitByLines` — like paragraph accumulation but on
single lines, `+1` for the newline, and without trimming on emission. -/
def splitByLines (content : Str) (maxSize : Nat) : List Str :=
  let lines := List.splitOn '\n' content
  let fin := lines.foldl (fun (st : List Str × Str) line =>
    let st1 :=
      if byteLen st.2 + byteLen line + 1 > maxSize ∧ 0 < byteLen st.2 then
        (st.1 ++ [st.2], ([] : Str))
      else st
    (st1.1, st1.2 ++ line ++ ['\n'])) ([], [])
  if 0 < byteLen fin.2 then fin.1 ++ [fin.2] else fin.1

/-- The opening brace character (written via its code point, 123). -/
def lbrace : Char := Char.ofNat 123

/-- The closing brace character (code point 125). -/
def rbrace : Char := Char.ofNat 125

/-- State of the src/chunker.go `splitByFunctions` scan. -/
structure FnScanState where
  sections : List Str
  cur : Str
  braceCount : Int
  inFunction : Bool

/-- The function-start heuristic of src/chunker.go `splitByFunctions` for
line number `i` with trimmed text `trimmed`. -/
def isFunctionStartLine (i : Nat) (trimmed : Str) : Bool :=
  (str "func ").isPrefixOf trimmed ||
  (str "function ").isPrefixOf trimmed ||
  (str "def ").isPrefixOf trimmed ||
  (str "class ").isPrefixOf trimmed ||
  (str "public ").isPrefixOf trimmed ||
  (str "private ").isPrefixOf trimmed ||
  (str "protected ").isPrefixOf trimmed ||
  (hasSub trimmed (str "=> \x7b") || hasSub trimmed (str "=>")) ||
  (decide (0 < i) && hasSub trimmed (str "(") && hasSub trimmed (str ")") &&
    hasSub trimmed (str "\x7b"))

/-- src/chunker.go: `splitByFunctions` — split code at heuristic
function/class boundaries using brace-depth tracking; fall back to
paragraph splitting at a 2000-byte budget when at most one section was
found. -/
def splitByFunctions (content : Str) : List Str :=
  let lines := List.splitOn '\n' content
  let fin := lines.enum.foldl (fun (st : FnScanState) il =>
    let i := il.1
    let line := il.2
    let trimmed := trimSpace line
    let st1 :=
      if isFunctionStartLine i trimmed = true ∧ st.inFunction = false ∧
          st.braceCount = 0 then
        { st with
            sections :=
              if 0 < byteLen st.cur then st.sections ++ [trimSpace st.cur]
              else st.sections,
            cur := if 0 < byteLen st.cur then [] else st.cur,
            inFunction := true }
      else st
    let st2 := { st1 with cur := st1.cur ++ line ++ ['\n'] }
    let st3 := { st2 with braceCount :=
      st2.braceCount + (countChar line lbrace : Int) - (countChar line rbrace : Int) }
    if st3.inFunction = true ∧ st3.braceCount = 0 ∧ hasSub line [rbrace] = true then
      { st3 with sections := st3.sections ++ [trimSpace st3.cur], cur := [],
                 inFunction := false }
    else st3)
    { sections := [], cur := [], braceCount := 0, inFunction := false }
  let sections :=
    if 0 < byteLen fin.cur then fin.sections ++ [trimSpace fin.cur]
    else fin.sections
  if sections.length ≤ 1 then splitByParagraphs content 2000 else sections

/-- Go `string(rune(i))`: the one-character string of code point `i`. -/
def runeStr (i : Nat) : Str := [Char.ofNat i]

/-- The chunk src/chunker.go `ChunkDocument` emits for `text` with chunk
index string `idx`. -/
def mkChunk (doc : Document) (docType : Str) (text idx : Str) : Chunk :=
  { Text := text, Source := doc.Source,
    Metadata := [(str "source", doc.Source), (str "type", docType),
                 (str "chunk_index", idx)] }

/-- src/chunker.go: `ChunkDocument` — strategy dispatch on the document
type, then per section: drop sections under 50 trimmed bytes; sections over
an estimated 5000 tokens (bytes/4) are line-split at a 16000-byte budget;
sections within `maxChunkSize` are emitted as-is; larger sections are
re-split by paragraphs bounded by `maxChunkSize`. -/
def ChunkDocument (doc : Document) (maxChunkSize : Nat) : List Chunk :=
  let docType := mapGetD doc.Metadata (str "type")
  let sections :=
    if docType = str "markdown" then splitByHeaders doc.Content
    else if docType = str "go" ∨ docType = str "javascript" ∨
        docType = str "typescript" ∨ docType = str "python" ∨
        docType = str "java" ∨ docType = str "c" then
      splitByFunctions doc.Content
    else splitByParagraphs doc.Content maxChunkSize
  sections.enum.flatMap (fun isec =>
    let i := isec.1
    let sec := isec.2
    if byteLen (trimSpace sec) < 50 then []
    else if byteLen sec / 4 > 5000 then
      (splitByLines sec 16000).enum.map (fun jsub =>
        mkChunk doc docType jsub.2 (runeStr i ++ str "." ++ runeStr jsub.1))
    else if byteLen sec ≤ maxChunkSize then
      [mkChunk doc docType sec (runeStr i)]
    else
      (splitByParagraphs sec maxChunkSize).enum.map (fun jsub =>
        mkChunk doc docType jsub.2 (runeStr i ++ str "." ++ runeStr jsub.1)))

/-- src/main.go line 18: `checkpointInterval = 100`. -/
def checkpointInterval : Nat := 100

/-- Observable events of an EMBED loop: requesting the embedding of chunk
`i` (followed by `vs.Add`), or persisting the in-progress store (holding
`chunkCount` chunks) to the checkpoint file. -/
inductive EmbedEvent
  | embed (i : Nat)
  | checkpointSave (chunkCount : Nat)
deriving DecidableEq

/-- The event trace of the full-index EMBED loop, src/main.go 1017-1037
(`indexSingleSource`): for `i` from `startIdx` (the resume point) to
`numChunks - 1`, request one embedding and add it, and save the checkpoint
whenever `(i+1) % checkpointInterval == 0`; the store holds `i+1` chunks at
that save. -/
def fullIndexEmbedTrace (startIdx numChunks : Nat) : List EmbedEvent :=
  (List.range' startIdx (numChunks - startIdx)).flatMap (fun i =>
    [EmbedEvent.embed i] ++
      (if (i + 1) % checkpointInterval = 0 then
        [EmbedEvent.checkpointSave (i + 1)]
      else []))

/-- The event trace of the incremental-update EMBED loop, src/main.go
1263-1271 (`runIncrementalIndexWithLLM`): one embedding per new chunk in
order, with no checkpoint saving in the loop body. -/
def incrementalEmbedTrace (numNewChunks : Nat) : List EmbedEvent :=
  (List.range numNewChunks).map EmbedEvent.embed

/-- The chunk index an `EmbedEvent` embeds, if any. -/
def embedIndexOf : EmbedEvent → Option Nat
  | .embed i => some i
  | .checkpointSave _ => none

/-- Fuel-indexed core of Go `filepath.Match` restricted to the literal/`*`
patterns the sources build (`*` never matches the separator `/`).  The fuel
only bounds the recursion depth, which consumes one of the two lists at
each step; `globMatch` supplies sufficient fuel. -/
def globMatchF : Nat → List Char → List Char → Bool
  | 0, _, _ => false
  | fuel + 1, p, s =>
    match p, s with
    | [], [] => true
    | [], _ :: _ => false
    | '*' :: ps, s =>
      globMatchF fuel ps s ||
        (match s with
         | [] => false
         | c :: s2 => decide (c ≠ '/') && globMatchF fuel ('*' :: ps) s2)
    | _ :: _, [] => false
    | c :: ps, d :: ss => c == d && globMatchF fuel ps ss

/-- Go `filepath.Match(pat, name)` for the patterns the sources build. -/
def globMatch (pat s : Str) : Bool := globMatchF (pat.length + s.length + 1) pat s

/-- The four glob patterns src/unnamed/part_005 `LoadSource` tries for a
source name (`.lrindex` preferred, `.json` for backward compatibility).
`filepath.Join(m.BaseDir, pat)` prefixes the base directory to pattern and
candidate alike, so the model works on directory-relative names. -/
def loadSourcePatterns (name : Str) : List Str :=
  [name ++ str "*.lrindex",
   str "*_" ++ name ++ str "*.lrindex",
   name ++ str "*.json",
   str "*_" ++ name ++ str "*.json"]

/-- `sort.Strings` / the sorted order `filepath.Glob` returns: byte-wise
lexicographic, which on the ASCII names involved is the `List Char` order. -/
def sortStrs (l : List Str) : List Str :=
  List.insertionSort (fun a b : Str => a ≤ b) l

/-- src/unnamed/part_005: the file `LoadSource` picks from the directory
listing `dirFiles`: glob each pattern (sorted matches), concatenate, drop
files containing `"checkpoint"`, and take the lexicographically last of the
sorted survivors (`validFiles[len(validFiles)-1]`); `none` when no file
survives (the error return). -/
def loadSourceSelect (dirFiles : List Str) (name : Str) : Option Str :=
  let allFiles := (loadSourcePatterns name).flatMap (fun pat =>
    sortStrs (dirFiles.filter (fun f => globMatch pat f)))
  let validFiles := allFiles.filter (fun f => ¬ hasSub f (str "checkpoint"))
  if validFiles.isEmpty then none
  else some ((sortStrs validFiles).getLastD [])

/-- Reference-semantics model of a Go `map[string]string` field: `none` is
a nil map, `some r` a reference into the heap. -/
abbrev MetaRef := Option Nat

/-- `Chunk` with its metadata map as a reference, as Go stores it. -/
structure HChunk where
  Text : Str
  Source : Str
  Metadata : MetaRef

/-- The heap of metadata maps: allocation counter plus contents. -/
structure Heap where
  next : Nat
  get : Nat → List (Str × Str)

/-- Overwrite the map a reference points to. -/
def heapWrite (h : Heap) (r : Nat) (v : List (Str × Str)) : Heap :=
  { h with get := fun n => if n = r then v else h.get n }

/-- Go `make(map[string]string)`: allocate a fresh empty map. -/
def heapAlloc (h : Heap) : Heap × Nat :=
  ({ next := h.next + 1,
     get := fun n => if n = h.next then [] else h.get n }, h.next)

/-- `VectorStore` under reference semantics (metadata only; the store-level
metadata plays no role in search). -/
structure HStore where
  Chunks : List HChunk
  Embeddings : List (List ℝ)

/-- `SearchResult` under reference semantics: the chunk struct is copied by
value, so the result shares the `Metadata` reference with the store. -/
structure HSearchResult where
  Chunk : HChunk
  Similarity : ℝ

/-- Descending-similarity comparison for `HSearchResult`. -/
def hSimGE (a b : HSearchResult) : Prop := b.Similarity ≤ a.Similarity

noncomputable instance : DecidableRel hSimGE :=
  fun a b => Real.decidableLE b.Similarity a.Similarity

/-- src/vectorstore.go `Search` under reference semantics: it only reads
the store, copying chunk structs (and thus metadata references) into the
results. -/
noncomputable def HStore.Search (vs : HStore) (queryEmbedding : List ℝ)
    (topK : Nat) : List HSearchResult :=
  let results := (vs.Chunks.zip vs.Embeddings).map
    (fun ce => { Chunk := ce.1, Similarity := cosineSimilarity queryEmbedding ce.2 })
  (List.insertionSort hSimGE results).take topK

/-- The tagging statement of src/unnamed/part_005 `MultiSourceStore.Search`
on one result: when the chunk's metadata map is nil, allocate a fresh map
for the result copy (the store still holds nil); otherwise write
`"vector_source" = name` through the shared reference — mutating the map
the store's chunk also points to. -/
def tagResult (h : Heap) (name : Str) (r : HSearchResult) :
    Heap × HSearchResult :=
  match r.Chunk.Metadata with
  | none =>
    let (h1, ref) := heapAlloc h
    (heapWrite h1 ref (mapSet (h1.get ref) (str "vector_source") name),
     { r with Chunk := { r.Chunk with Metadata := some ref } })
  | some ref =>
    (heapWrite h ref (mapSet (h.get ref) (str "vector_source") name), r)

/-- Tag every result of one source in order. -/
def tagResults (h : Heap) (name : Str) :
    List HSearchResult → Heap × List HSearchResult
  | [] => (h, [])
  | r :: rest =>
    let (h1, r1) := tagResult h name r
    let (h2, rs) := tagResults h1 name rest
    (h2, r1 :: rs)

/-- The `Sources` map under reference semantics. -/
abbrev HSourcesMap := List (Str × HStore)

/-- Go `m.Sources[name]` under reference semantics. -/
def hLookupStore (m : HSourcesMap) (name : Str) : Option HStore :=
  (m.find? (fun kv => kv.1 = name)).map (fun kv => kv.2)

/-- src/unnamed/part_005 `MultiSourceStore.Search` under reference
semantics, making the metadata-map writes of the tagging loop explicit
heap updates. -/
noncomputable def msSearchH (h : Heap) (m : HSourcesMap)
    (queryEmbedding : List ℝ) (topK : Nat) (names : List Str) :
    Heap × List HSearchResult :=
  let nms := if names.isEmpty then m.map (fun kv => kv.1) else names
  let folded := nms.foldl (fun (acc : Heap × List HSearchResult) nm =>
    match hLookupStore m nm with
    | none => acc
    | some vs =>
      let tagged := tagResults acc.1 nm (vs.Search queryEmbedding topK)
      (tagged.1, acc.2 ++ tagged.2)) (h, [])
  (folded.1, (List.insertionSort hSimGE folded.2).take topK)

-- ===== helper lemmas =====

theorem zip_map_fst_snd_eq {α β : Type} (l : List (α × β)) :
    (l.map Prod.fst).zip (l.map Prod.snd) = l := by
  induction l with
  | nil => rfl
  | cons a t ih => simp [ih]

theorem applyOps_aligned (ops : List StoreOp) :
    ∀ vs : VectorStore, vs.Chunks.length = vs.Embeddings.length →
      (applyOps ops vs).Chunks.length = (applyOps ops vs).Embeddings.length := by
  induction ops with
  | nil => intro vs h; exact h
  | cons op t ih =>
    intro vs h
    refine ih _ ?_
    cases op with
    | add c e => simp [applyOp, VectorStore.Add, h]
    | removeBySource ps => simp [applyOp, VectorStore.RemoveBySource]

/-- C2: parallel-array alignment invariant.  Every store reachable from the
empty store by any sequence of Add and RemoveBySource operations has
`len(Chunks) = len(Embeddings)`; Add appends the (chunk, embedding) pair to
both arrays; RemoveBySource shrinks both together — its surviving
(chunk, embedding) pairs are exactly the original pairs whose source is not
in the removal list, in their original order. -/
theorem alignment_invariant :
    (∀ ops : List StoreOp,
      (applyOps ops NewVectorStore).Chunks.length =
        (applyOps ops NewVectorStore).Embeddings.length) ∧
    (∀ (vs : VectorStore) (c : Chunk) (e : List ℝ),
      (vs.Add c e).Chunks = vs.Chunks ++ [c] ∧
      (vs.Add c e).Embeddings = vs.Embeddings ++ [e]) ∧
    (∀ (vs : VectorStore) (ps : List Str),
      ((vs.RemoveBySource ps).1.Chunks).zip ((vs.RemoveBySource ps).1.Embeddings) =
        (vs.Chunks.zip vs.Embeddings).filter
          (fun p => ¬ ps.contains p.1.Source)) := by
  refine ⟨fun ops => applyOps_aligned ops NewVectorStore rfl, fun vs c e => ⟨rfl, rfl⟩, ?_⟩
  intro vs ps
  simp only [VectorStore.RemoveBySource]
  exact zip_map_fst_snd_eq _

-- ===== C7 =====

theorem flatMap_filterMap_embed (is : List Nat) :
    ((is.flatMap (fun i =>
        [EmbedEvent.embed i] ++
          (if (i + 1) % checkpointInterval = 0 then
            [EmbedEvent.checkpointSave (i + 1)] else []))).filterMap
      embedIndexOf) = is := by
  induction is with
  | nil => rfl
  | cons a t ih =>
    rw [List.flatMap_cons, List.filterMap_append, ih]
    by_cases h : (a + 1) % checkpointInterval = 0 <;> simp [h, embedIndexOf]

theorem mem_flatMap_split {α β : Type} (g : α → List β) (x : α) :
    ∀ (l : List α), x ∈ l → ∃ s t, l.flatMap g = s ++ g x ++ t := by
  intro l
  induction l with
  | nil => intro hl; cases hl
  | cons a t ih =>
    intro hl
    rcases List.mem_cons.mp hl with rfl | h
    · exact ⟨[], t.flatMap g, by simp⟩
    · obtain ⟨s, u, hsu⟩ := ih h
      exact ⟨g a ++ s, u, by simp [List.flatMap_cons, hsu]⟩

/-- C7 counterexample: the incremental-update EMBED loop of
`runIncrementalIndexWithLLM` embeds its 100th chunk without ever persisting
a checkpoint — no checkpoint-save event occurs in its trace at all, so the
claimed every-100-chunks checkpoint cadence fails on the incremental path. -/
theorem incremental_checkpoint_cex :
    EmbedEvent.embed 99 ∈ incrementalEmbedTrace 100 ∧
    ∀ c : Nat, EmbedEvent.checkpointSave c ∉ incrementalEmbedTrace 100 := by
  constructor
  · decide
  · intro c h
    simp [incrementalEmbedTrace] at h

/-- C7 amended: embeddings are requested one chunk at a time, sequentially
and in order, in both EMBED loops (their traces embed exactly the chunk
indices `startIdx..numChunks-1`, resp. `0..n-1`, in order); in the
full-index path every 100th embedded chunk is immediately followed by a
checkpoint save of the store holding `i+1` chunks; the incremental-update
path performs no checkpoint saves at all. -/
theorem embed_checkpoint_cadence :
    (∀ startIdx numChunks : Nat,
      (fullIndexEmbedTrace startIdx numChunks).filterMap embedIndexOf =
        List.range' startIdx (numChunks - startIdx)) ∧
    (∀ startIdx numChunks i : Nat, startIdx ≤ i → i < numChunks →
      (i + 1) % checkpointInterval = 0 →
      ∃ s t, fullIndexEmbedTrace startIdx numChunks =
        s ++ [EmbedEvent.embed i, EmbedEvent.checkpointSave (i + 1)] ++ t) ∧
    (∀ n : Nat, (incrementalEmbedTrace n).filterMap embedIndexOf = List.range n) ∧
    (∀ n c : Nat, EmbedEvent.checkpointSave c ∉ incrementalEmbedTrace n) := by
  refine ⟨?_, ?_, ?_, ?_⟩
  · intro startIdx numChunks
    exact flatMap_filterMap_embed _
  · intro startIdx numChunks i h1 h2 h3
    have hmem : i ∈ List.range' startIdx (numChunks - startIdx) := by
      rw [List.mem_range'_1]
      omega
    obtain ⟨s, t, hst⟩ := mem_flatMap_split
      (fun i => [EmbedEvent.embed i] ++
        (if (i + 1) % checkpointInterval = 0 then
          [EmbedEvent.checkpointSave (i + 1)] else [])) i _ hmem
    refine ⟨s, t, ?_⟩
    rw [fullIndexEmbedTrace, hst, h3]
    simp
  · intro n
    simp [incrementalEmbedTrace, List.filterMap_map, embedIndexOf]
    exact List.filterMap_some _
  · intro n c h
    simp [incrementalEmbedTrace] at h

/-- C7 witness: at `startIdx = 0`, 100 chunks, the full-index trace
contains `embed 99` immediately followed by a checkpoint save of 100
chunks. -/
theorem embed_checkpoint_cadence_witness :
    (0 ≤ 99 ∧ 99 < 100 ∧ (99 + 1) % checkpointInterval = 0) ∧
    ∃ s t, fullIndexEmbedTrace 0 100 =
      s ++ [EmbedEvent.embed 99, EmbedEvent.checkpointSave 100] ++ t :=
  ⟨by decide,
   embed_checkpoint_cadence.2.1 0 100 99 (by decide) (by decide) (by decide)⟩

-- ===== C9 =====

theorem getLastD_mem {α : Type} (l : List α) (d : α) (h : l ≠ []) :
    l.getLastD d ∈ l := by
  induction l with
  | nil => exact absurd rfl h
  | cons a t ih =>
    cases t with
    | nil => simp
    | cons b u => simpa using Or.inr (ih (by simp))

theorem sorted_le_getLastD {α : Type} [LinearOrder α] (l : List α) (d : α)
    (hs : List.Sorted (fun a b : α => a ≤ b) l) :
    ∀ x ∈ l, x ≤ l.getLastD d := by
  induction l with
  | nil => intro x hx; cases hx
  | cons a t ih =>
    intro x hx
    rcases List.mem_cons.mp hx with h1 | hx2
    · subst h1
      cases t with
      | nil => simp
      | cons b u =>
        have hbd : b ≤ (b :: u).getLastD d :=
          ih (List.sorted_cons.mp hs).2 b (by simp)
        have hab : x ≤ b := (List.sorted_cons.mp hs).1 b (by simp)
        simpa using le_trans hab hbd
    · cases t with
      | nil => cases hx2
      | cons b u =>
        simpa using ih (List.sorted_cons.mp hs).2 x hx2

theorem sortStrs_sorted (l : List Str) :
    List.Sorted (fun a b : Str => a ≤ b) (sortStrs l) :=
  List.sorted_insertionSort _ l

theorem mem_sortStrs {l : List Str} {x : Str} : x ∈ sortStrs l ↔ x ∈ l :=
  List.mem_insertionSort _

/-- C9 counterexample: with directory `[name.lrindex, name.tmp.lrindex]`,
`LoadSource "name"` selects the leftover temp file `name.tmp.lrindex` —
temp files are not excluded from discovery, contradicting the claim that a
temp file is never selected as the canonical index. -/
theorem loadSource_temp_cex :
    loadSourceSelect [str "name.lrindex", str "name.tmp.lrindex"] (str "name") =
      some (str "name.tmp.lrindex") ∧
    hasSub (str "name.tmp.lrindex") (str ".tmp.") = true := by
  exact ⟨by decide, by decide⟩

/-- C9 amended: whatever file `LoadSource` selects is a directory entry
matching one of the four filename patterns for the source name, never
contains "checkpoint", and is lexicographically last among the matching
non-checkpoint entries; temp files are not excluded and participate in
this maximum. -/
theorem loadSource_selection (dirFiles : List Str) (name f : Str)
    (h : loadSourceSelect dirFiles name = some f) :
    f ∈ dirFiles ∧
    (∃ pat ∈ loadSourcePatterns name, globMatch pat f = true) ∧
    hasSub f (str "checkpoint") = false ∧
    (∀ g ∈ dirFiles, (∃ pat ∈ loadSourcePatterns name, globMatch pat g = true) →
      hasSub g (str "checkpoint") = false → g ≤ f) := by
  rw [loadSourceSelect] at h
  set allFiles := (loadSourcePatterns name).flatMap (fun pat =>
    sortStrs (dirFiles.filter (fun f => globMatch pat f))) with hall
  set validFiles := allFiles.filter (fun f => ¬ hasSub f (str "checkpoint"))
    with hvalid
  by_cases hemp : validFiles.isEmpty
  · rw [if_pos hemp] at h
    cases h
  · rw [if_neg hemp] at h
    have hvne : validFiles ≠ [] := by
      intro hv
      rw [hv] at hemp
      exact hemp rfl
    have hne : sortStrs validFiles ≠ [] := by
      intro hnil
      apply hvne
      have hlen : (sortStrs validFiles).length = validFiles.length :=
        (List.perm_insertionSort (fun a b : Str => a ≤ b) validFiles).length_eq
      rw [hnil] at hlen
      exact (List.length_eq_zero.mp hlen.symm)
    have hfmem : f ∈ validFiles := by
      rw [← mem_sortStrs]
      rw [← Option.some_inj.mp h]
      exact getLastD_mem _ _ hne
    have hfprops := List.mem_filter.mp hfmem
    have hfall : f ∈ allFiles := hfprops.1
    have hfcp : hasSub f (str "checkpoint") = false := by
      have := hfprops.2
      simpa using this
    have hfpat : ∃ pat ∈ loadSourcePatterns name, globMatch pat f = true ∧ f ∈ dirFiles := by
      rw [hall] at hfall
      rcases List.mem_flatMap.mp hfall with ⟨pat, hp, hf⟩
      rw [mem_sortStrs] at hf
      have := List.mem_filter.mp hf
      exact ⟨pat, hp, this.2, this.1⟩
    obtain ⟨pat, hp, hgm, hfd⟩ := hfpat
    refine ⟨hfd, ⟨pat, hp, hgm⟩, hfcp, ?_⟩
    intro g hg ⟨pat2, hp2, hgm2⟩ hgcp
    have hgall : g ∈ allFiles := by
      rw [hall]
      exact List.mem_flatMap.mpr ⟨pat2, hp2, mem_sortStrs.mpr
        (List.mem_filter.mpr ⟨hg, by simpa using hgm2⟩)⟩
    have hgvalid : g ∈ validFiles :=
      List.mem_filter.mpr ⟨hgall, by simpa using hgcp⟩
    have := sorted_le_getLastD (sortStrs validFiles) [] (sortStrs_sorted _) g
      (mem_sortStrs.mpr hgvalid)
    exact (Option.some_inj.mp h) ▸ this

/-- C9 witness: over `[name_20240101.lrindex, name.lrindex]` the selected
file `name_20240101.lrindex` is a matching, non-checkpoint,
lexicographically-last entry. -/
theorem loadSource_selection_witness :
    (str "name_20240101.lrindex" ∈ [str "name_20240101.lrindex", str "name.lrindex"]) ∧
    (∃ pat ∈ loadSourcePatterns (str "name"),
      globMatch pat (str "name_20240101.lrindex") = true) ∧
    hasSub (str "name_20240101.lrindex") (str "checkpoint") = false ∧
    (∀ g ∈ [str "name_20240101.lrindex", str "name.lrindex"],
      (∃ pat ∈ loadSourcePatterns (str "name"), globMatch pat g = true) →
      hasSub g (str "checkpoint") = false → g ≤ str "name_20240101.lrindex") :=
  loadSource_selection [str "name_20240101.lrindex", str "name.lrindex"]
    (str "name") (str "name_20240101.lrindex") (by decide)

-- ===== C8 =====

theorem byteLen_cons (c : Char) (t : Str) :
    byteLen (c :: t) = c.utf8Size + byteLen t := by
  simp [byteLen]

theorem byteLen_append (a b : Str) : byteLen (a ++ b) = byteLen a + byteLen b := by
  simp [byteLen]

theorem byteLen_eq_zero {l : Str} : byteLen l = 0 ↔ l = [] := by
  cases l with
  | nil => simp [byteLen]
  | cons c t =>
    constructor
    · intro h
      exfalso
      have hpos := Char.utf8Size_pos c
      rw [byteLen_cons] at h
      omega
    · intro h
      cases h

theorem byteLen_dropWhile_le (p : Char → Bool) (l : Str) :
    byteLen (l.dropWhile p) ≤ byteLen l := by
  induction l with
  | nil => simp
  | cons c t ih =>
    rw [List.dropWhile_cons]
    by_cases h : p c
    · simp only [h, if_true]
      refine le_trans ih ?_
      rw [byteLen_cons]
      omega
    · simp [h]

theorem byteLen_reverse (l : Str) : byteLen l.reverse = byteLen l := by
  simp [byteLen, List.map_reverse, List.sum_reverse]

theorem byteLen_trimSpace_le (s : Str) : byteLen (trimSpace s) ≤ byteLen s := by
  unfold trimSpace
  calc byteLen ((s.dropWhile goIsSpace).reverse.dropWhile goIsSpace).reverse
      = byteLen ((s.dropWhile goIsSpace).reverse.dropWhile goIsSpace) :=
        byteLen_reverse _
    _ ≤ byteLen (s.dropWhile goIsSpace).reverse := byteLen_dropWhile_le _ _
    _ = byteLen (s.dropWhile goIsSpace) := byteLen_reverse _
    _ ≤ byteLen s := byteLen_dropWhile_le _ _

theorem sppStep_invariant (maxSize : Nat) (paras0 : List Str) (st : List Str × Str)
    (para : Str) (hpara : para ∈ paras0)
    (hinv : ∀ c ∈ st.1,
      byteLen c ≤ maxSize ∨
        ∃ p ∈ paras0, c = trimSpace (p ++ ['\n', '\n']))
    (hcur : byteLen st.2 ≤ maxSize) :
    (∀ c ∈ (sppStep maxSize st para).1,
      byteLen c ≤ maxSize ∨
        ∃ p ∈ paras0, c = trimSpace (p ++ ['\n', '\n'])) ∧
    byteLen (sppStep maxSize st para).2 ≤ maxSize := by
  unfold sppStep
  by_cases hA : byteLen st.2 + byteLen para + 2 > maxSize ∧ 0 < byteLen st.2
  · -- pre-flush happened: accumulator is empty before the append
    rw [if_pos hA]
    simp only
    have hinv1 : ∀ c ∈ st.1 ++ [trimSpace st.2],
        byteLen c ≤ maxSize ∨
          ∃ p ∈ paras0, c = trimSpace (p ++ ['\n', '\n']) := by
      intro c hc
      rcases List.mem_append.mp hc with hc1 | hc2
      · exact hinv c hc1
      · rw [List.mem_singleton.mp hc2]
        exact Or.inl (le_trans (byteLen_trimSpace_le _) hcur)
    by_cases hB : byteLen (([] : Str) ++ para ++ ['\n', '\n']) > maxSize
    · rw [if_pos hB]
      refine ⟨?_, by simp [byteLen]⟩
      intro c hc
      rcases List.mem_append.mp hc with hc1 | hc2
      · exact hinv1 c hc1
      · rw [List.mem_singleton.mp hc2]
        exact Or.inr ⟨para, hpara, by simp⟩
    · rw [if_neg hB]
      refine ⟨hinv1, ?_⟩
      show byteLen (([] : Str) ++ para ++ ['\n', '\n']) ≤ maxSize
      omega
  · -- no pre-flush
    rw [if_neg hA]
    simp only
    by_cases hB : byteLen (st.2 ++ para ++ ['\n', '\n']) > maxSize
    · rw [if_pos hB]
      -- the accumulator must have been empty: a non-empty accumulator passed
      -- the pre-flush test, so appending stays within maxSize
      have hempty : st.2 = [] := by
        rcases Classical.em (0 < byteLen st.2) with hpos | hzero
        · exfalso
          have hle : ¬ (byteLen st.2 + byteLen para + 2 > maxSize) := fun hgt =>
            hA ⟨hgt, hpos⟩
          rw [byteLen_append, byteLen_append] at hB
          have h2 : byteLen (['\n', '\n'] : Str) = 2 := by decide
          omega
        · exact byteLen_eq_zero.mp (by omega)
      refine ⟨?_, by simp [byteLen]⟩
      intro c hc
      rcases List.mem_append.mp hc with hc1 | hc2
      · exact hinv c hc1
      · rw [List.mem_singleton.mp hc2, hempty]
        exact Or.inr ⟨para, hpara, by simp⟩
    · rw [if_neg hB]
      refine ⟨hinv, ?_⟩
      show byteLen (st.2 ++ para ++ ['\n', '\n']) ≤ maxSize
      omega

theorem spp_fold_invariant (maxSize : Nat) (paras0 : List Str) :
    ∀ (paras : List Str) (st : List Str × Str),
      (∀ p ∈ paras, p ∈ paras0) →
      (∀ c ∈ st.1,
        byteLen c ≤ maxSize ∨
          ∃ p ∈ paras0, c = trimSpace (p ++ ['\n', '\n'])) →
      byteLen st.2 ≤ maxSize →
      (∀ c ∈ (paras.foldl (sppStep maxSize) st).1,
        byteLen c ≤ maxSize ∨
          ∃ p ∈ paras0, c = trimSpace (p ++ ['\n', '\n'])) ∧
      byteLen (paras.foldl (sppStep maxSize) st).2 ≤ maxSize := by
  intro paras
  induction paras with
  | nil => intro st _ hinv hcur; exact ⟨hinv, hcur⟩
  | cons p t ih =>
    intro st hsub hinv hcur
    rw [List.foldl_cons]
    have hstep := sppStep_invariant maxSize paras0 st p (hsub p (by simp)) hinv hcur
    exact ih _ (fun q hq => hsub q (by simp [hq])) hstep.1 hstep.2

/-- C8 amended: every chunk that `splitByParagraphs` emits either has byte
length at most `maxSize`, or is the trimmed text of a single source
paragraph (with its appended blank line) — i.e. a single paragraph larger
than `maxSize` is emitted whole as one oversized chunk rather than split
mid-unit; accumulated multi-paragraph chunks never exceed the bound. -/
theorem splitByParagraphs_chunk_bound (content : Str) (maxSize : Nat) :
    ∀ chunk ∈ splitByParagraphs content maxSize,
      byteLen chunk ≤ maxSize ∨
        ∃ para ∈ splitNN content, chunk = trimSpace (para ++ ['\n', '\n']) := by
  intro chunk hc
  have key := spp_fold_invariant maxSize (splitNN content) (splitNN content)
    ([], []) (fun p hp => hp) (by simp) (by simp [byteLen])
  rw [splitByParagraphs] at hc
  by_cases hfin :
      0 < byteLen ((splitNN content).foldl (sppStep maxSize) ([], [])).2
  · rw [if_pos hfin] at hc
    rcases List.mem_append.mp hc with hc1 | hc2
    · exact key.1 chunk hc1
    · rw [List.mem_singleton.mp hc2]
      exact Or.inl (le_trans (byteLen_trimSpace_le _) key.2)
  · rw [if_neg hfin] at hc
    exact key.1 chunk hc

/-- C8 witness: the 60-byte single-paragraph chunk produced at
`maxSize = 50` satisfies the amended disjunction (as the trimmed single
paragraph). -/
theorem splitByParagraphs_chunk_bound_witness :
    byteLen (List.replicate 60 'a') ≤ 50 ∨
      ∃ para ∈ splitNN (List.replicate 60 'a'),
        List.replicate 60 'a' = trimSpace (para ++ ['\n', '\n']) :=
  splitByParagraphs_chunk_bound (List.replicate 60 'a') 50
    (List.replicate 60 'a') (by decide)

/-- C8 counterexample: a document of one 60-byte paragraph routed to
paragraph splitting with `maxChunkSize = 50` yields exactly one chunk of
byte length 60 > 50 — the bound is violated and the oversized paragraph is
not split mid-unit. -/
theorem paragraph_oversized_cex :
    ((ChunkDocument
        { Content := List.replicate 60 'a', Source := str "doc.txt",
          Metadata := [(str "type", str "text")] } 50).map
      (fun c => byteLen c.Text)) = [60] ∧ 50 < 60 :=
  ⟨by decide, by decide⟩

-- ===== C5 =====

theorem mtimeScan_eq (indexedAt : Int) (indexedFiles exts : List Str) :
    ∀ walk : List WalkEntry,
      mtimeScan indexedAt indexedFiles exts walk =
        ((walk.filter (fun e => hasMatchingExtension e.path exts = true ∧
            e.path ∉ indexedFiles)).map WalkEntry.path,
         (walk.filter (fun e => hasMatchingExtension e.path exts = true ∧
            e.path ∈ indexedFiles ∧ e.mtime > indexedAt)).map WalkEntry.path,
         (walk.filter (fun e => hasMatchingExtension e.path exts = true ∧
            e.path ∈ indexedFiles)).map WalkEntry.path) := by
  intro walk
  induction walk with
  | nil => rfl
  | cons e rest ih =>
    rw [mtimeScan, ih]
    by_cases hext : hasMatchingExtension e.path exts = true
    · by_cases hidx : e.path ∈ indexedFiles
      · by_cases hmt : indexedAt < e.mtime
        · simp [hext, hidx, hmt]
        · simp [hext, hidx, hmt]
      · simp [hext, hidx]
    · simp [hext]

theorem detect_mem_added (walk : List WalkEntry) (indexedAt : Int)
    (indexedFiles exts : List Str) (p : Str) :
    p ∈ (detectChangesMtime walk indexedAt indexedFiles exts).Added ↔
      ∃ e ∈ walk, e.path = p ∧ hasMatchingExtension p exts = true ∧
        p ∉ indexedFiles := by
  rw [detectChangesMtime, mtimeScan_eq]
  simp only [List.mem_map, List.mem_filter, decide_eq_true_eq]
  constructor
  · rintro ⟨e, ⟨he, hcond⟩, rfl⟩
    exact ⟨e, he, rfl, hcond.1, hcond.2⟩
  · rintro ⟨e, he, rfl, hext, hnm⟩
    exact ⟨e, ⟨he, hext, hnm⟩, rfl⟩

theorem detect_mem_modified (walk : List WalkEntry) (indexedAt : Int)
    (indexedFiles exts : List Str) (p : Str) :
    p ∈ (detectChangesMtime walk indexedAt indexedFiles exts).Modified ↔
      ∃ e ∈ walk, e.path = p ∧ hasMatchingExtension p exts = true ∧
        p ∈ indexedFiles ∧ e.mtime > indexedAt := by
  rw [detectChangesMtime, mtimeScan_eq]
  simp only [List.mem_map, List.mem_filter, decide_eq_true_eq]
  constructor
  · rintro ⟨e, ⟨he, hcond⟩, rfl⟩
    exact ⟨e, he, rfl, hcond.1, hcond.2.1, hcond.2.2⟩
  · rintro ⟨e, he, rfl, hext, hm, hmt⟩
    exact ⟨e, ⟨he, hext, hm, hmt⟩, rfl⟩

theorem detect_mem_deleted (walk : List WalkEntry) (indexedAt : Int)
    (indexedFiles exts : List Str) (p : Str) :
    p ∈ (detectChangesMtime walk indexedAt indexedFiles exts).Deleted ↔
      p ∈ indexedFiles ∧
        ¬ ∃ e ∈ walk, e.path = p ∧ hasMatchingExtension p exts = true := by
  rw [detectChangesMtime, mtimeScan_eq]
  simp only [List.mem_filter, List.mem_dedup, decide_eq_true_eq]
  constructor
  · rintro ⟨hm, hns⟩
    refine ⟨hm, ?_⟩
    rintro ⟨e, he, rfl, hext⟩
    apply hns
    simp only [List.elem_eq_mem, List.mem_map, List.mem_filter, decide_eq_true_eq,
      decide_eq_true_iff]
    exact ⟨e, ⟨he, hext, hm⟩, rfl⟩
  · rintro ⟨hm, hne⟩
    refine ⟨hm, ?_⟩
    intro hcontains
    apply hne
    simp only [List.elem_eq_mem, decide_eq_true_iff, List.mem_map,
      List.mem_filter, decide_eq_true_eq] at hcontains
    obtain ⟨e, ⟨he, hext, _⟩, rfl⟩ := hcontains
    exact ⟨e, he, rfl, hext⟩

/-- C5: mtime change-detection classification.  A path is in Added iff some
walked file has that path, it passes the extension filter, and it is absent
from the recorded indexed-file list; in Modified iff additionally it is in
the recorded list and its mtime is strictly after the recorded index time;
in Deleted iff it is in the recorded list and no extension-passing walked
file has that path.  The three lists are pairwise disjoint, and a run over
an unchanged tree (every matching walked file recorded with mtime not after
the index time, every recorded file present and matching) yields three
empty lists. -/
theorem detectChangesMtime_classification (walk : List WalkEntry)
    (indexedAt : Int) (indexedFiles exts : List Str) :
    (∀ p, p ∈ (detectChangesMtime walk indexedAt indexedFiles exts).Added ↔
      ∃ e ∈ walk, e.path = p ∧ hasMatchingExtension p exts = true ∧
        p ∉ indexedFiles) ∧
    (∀ p, p ∈ (detectChangesMtime walk indexedAt indexedFiles exts).Modified ↔
      ∃ e ∈ walk, e.path = p ∧ hasMatchingExtension p exts = true ∧
        p ∈ indexedFiles ∧ e.mtime > indexedAt) ∧
    (∀ p, p ∈ (detectChangesMtime walk indexedAt indexedFiles exts).Deleted ↔
      p ∈ indexedFiles ∧
        ¬ ∃ e ∈ walk, e.path = p ∧ hasMatchingExtension p exts = true) ∧
    (∀ p, ¬ (p ∈ (detectChangesMtime walk indexedAt indexedFiles exts).Added ∧
        p ∈ (detectChangesMtime walk indexedAt indexedFiles exts).Modified)) ∧
    (∀ p, ¬ (p ∈ (detectChangesMtime walk indexedAt indexedFiles exts).Added ∧
        p ∈ (detectChangesMtime walk indexedAt indexedFiles exts).Deleted)) ∧
    (∀ p, ¬ (p ∈ (detectChangesMtime walk indexedAt indexedFiles exts).Modified ∧
        p ∈ (detectChangesMtime walk indexedAt indexedFiles exts).Deleted)) ∧
    ((∀ e ∈ walk, hasMatchingExtension e.path exts = true →
        e.path ∈ indexedFiles ∧ ¬ e.mtime > indexedAt) →
      (∀ f ∈ indexedFiles, ∃ e ∈ walk, e.path = f ∧
        hasMatchingExtension f exts = true) →
      detectChangesMtime walk indexedAt indexedFiles exts =
        { Added := [], Modified := [], Deleted := [] }) := by
  refine ⟨detect_mem_added walk indexedAt indexedFiles exts,
          detect_mem_modified walk indexedAt indexedFiles exts,
          detect_mem_deleted walk indexedAt indexedFiles exts, ?_, ?_, ?_, ?_⟩
  · intro p ⟨ha, hm⟩
    obtain ⟨_, _, _, _, hnm⟩ := (detect_mem_added walk indexedAt indexedFiles exts p).mp ha
    obtain ⟨_, _, _, _, hmem, _⟩ := (detect_mem_modified walk indexedAt indexedFiles exts p).mp hm
    exact hnm hmem
  · intro p ⟨ha, hd⟩
    obtain ⟨_, _, _, _, hnm⟩ := (detect_mem_added walk indexedAt indexedFiles exts p).mp ha
    obtain ⟨hmem, _⟩ := (detect_mem_deleted walk indexedAt indexedFiles exts p).mp hd
    exact hnm hmem
  · intro p ⟨hm, hd⟩
    obtain ⟨e, he, hp, hext, _, _⟩ := (detect_mem_modified walk indexedAt indexedFiles exts p).mp hm
    obtain ⟨_, hne⟩ := (detect_mem_deleted walk indexedAt indexedFiles exts p).mp hd
    exact hne ⟨e, he, hp, hext⟩
  · intro hwalk hidx
    have hA : (detectChangesMtime walk indexedAt indexedFiles exts).Added = [] := by
      rw [List.eq_nil_iff_forall_not_mem]
      intro p hp
      obtain ⟨e, he, rfl, hext, hnm⟩ :=
        (detect_mem_added walk indexedAt indexedFiles exts _).mp hp
      exact hnm (hwalk e he hext).1
    have hM : (detectChangesMtime walk indexedAt indexedFiles exts).Modified = [] := by
      rw [List.eq_nil_iff_forall_not_mem]
      intro p hp
      obtain ⟨e, he, rfl, hext, _, hmt⟩ :=
        (detect_mem_modified walk indexedAt indexedFiles exts _).mp hp
      exact (hwalk e he hext).2 hmt
    have hD : (detectChangesMtime walk indexedAt indexedFiles exts).Deleted = [] := by
      rw [List.eq_nil_iff_forall_not_mem]
      intro p hp
      obtain ⟨hmem, hne⟩ :=
        (detect_mem_deleted walk indexedAt indexedFiles exts _).mp hp
      exact hne (hidx p hmem)
    cases hcs : detectChangesMtime walk indexedAt indexedFiles exts
    rw [hcs] at hA hM hD
    simp_all

/-- C5 witness: the spec's four-file example — file1 unchanged, file2 with
newer mtime, file3 deleted on disk, file4 new — classified through the
claim theorem as Added=[file4], Modified=[file2], Deleted=[file3]. -/
theorem detectChangesMtime_classification_witness :
    (str "file4.md" ∈ (detectChangesMtime
        [⟨str "file1.md", 5⟩, ⟨str "file2.md", 20⟩, ⟨str "file4.md", 20⟩]
        10 [str "file1.md", str "file2.md", str "file3.md"] [str ".md"]).Added) ∧
    (str "file2.md" ∈ (detectChangesMtime
        [⟨str "file1.md", 5⟩, ⟨str "file2.md", 20⟩, ⟨str "file4.md", 20⟩]
        10 [str "file1.md", str "file2.md", str "file3.md"] [str ".md"]).Modified) ∧
    (str "file3.md" ∈ (detectChangesMtime
        [⟨str "file1.md", 5⟩, ⟨str "file2.md", 20⟩, ⟨str "file4.md", 20⟩]
        10 [str "file1.md", str "file2.md", str "file3.md"] [str ".md"]).Deleted) ∧
    detectChangesMtime
        [⟨str "file1.md", 5⟩, ⟨str "file2.md", 20⟩, ⟨str "file4.md", 20⟩]
        10 [str "file1.md", str "file2.md", str "file3.md"] [str ".md"] =
      { Added := [str "file4.md"], Modified := [str "file2.md"],
        Deleted := [str "file3.md"] } :=
  ⟨((detectChangesMtime_classification _ _ _ _).1 _).mpr (by decide),
   ((detectChangesMtime_classification _ _ _ _).2.1 _).mpr (by decide),
   ((detectChangesMtime_classification _ _ _ _).2.2.1 _).mpr (by decide),
   by decide⟩

-- ===== C1 =====

theorem length_replaceFirst (nw : Str) :
    ∀ (s old : Str), old <:+ s → old ≠ [] →
      (replaceFirst s old nw).length = s.length - old.length + nw.length := by
  intro s
  induction s with
  | nil =>
    intro old hsuf hne
    exact absurd (List.suffix_nil.mp hsuf) hne
  | cons c t ih =>
    intro old hsuf hne
    rw [replaceFirst]
    by_cases hp : old.isPrefixOf (c :: t) = true
    · rw [if_pos hp]
      have hle : old.length ≤ (c :: t).length :=
        (List.isPrefixOf_iff_prefix.mp hp).length_le
      simp only [List.length_append, List.length_drop]
      omega
    · rw [if_neg hp]
      have hsuf2 : old <:+ t := by
        obtain ⟨pre, hpre⟩ := hsuf
        cases pre with
        | nil =>
          exfalso
          apply hp
          rw [List.nil_append] at hpre
          rw [hpre]
          exact List.isPrefixOf_iff_prefix.mpr List.prefix_rfl
        | cons x pre2 =>
          exact ⟨pre2, by injection hpre⟩
      have hlen : old.length ≤ t.length := hsuf2.length_le
      simp only [List.length_cons]
      rw [ih old hsuf2 hne]
      omega

theorem tempPathOf_length (p : Str) : (tempPathOf p).length = p.length + 4 := by
  rw [tempPathOf]
  by_cases hs : lrSuffix.isSuffixOf p = true
  · rw [if_pos hs]
    have hsuf : lrSuffix <:+ p := List.isSuffixOf_iff_suffix.mp hs
    have hle : lrSuffix.length ≤ p.length := hsuf.length_le
    rw [length_replaceFirst _ p lrSuffix hsuf (by decide)]
    have h8 : lrSuffix.length = 8 := by decide
    have h12 : (str ".tmp.lrindex").length = 12 := by decide
    omega
  · rw [if_neg hs]
    simp [str]

theorem tempPathOf_ne (p : Str) : tempPathOf p ≠ p := by
  intro h
  have := congrArg List.length h
  rw [tempPathOf_length] at this
  omega

/-- C1: commit atomicity of `atomicSave`.  For arbitrary marshal/unmarshal
and gzip collaborators (so the reloaded temp file may fail to parse or may
disagree in chunk count): whenever the outcome is not `ok` — the temp file
could not be reloaded or the reloaded chunk count differs — the file at the
final path is byte-identical to what was there before the call and the temp
file has been deleted; when the outcome is `ok` the temp file has been
renamed over the final path (the final path holds exactly the bytes Save
wrote to the temp path, and the temp path is gone); and the final path
changes only on an `ok` outcome. -/
theorem atomicSave_validation_atomicity
    (jsonEncode : VectorStore → Bytes) (gzipC : Bytes → Bytes)
    (jsonDecode : Bytes → Option VectorStore) (gzipD : Bytes → Option Bytes)
    (vs : VectorStore) (finalPath : Str) (fs : FS) (fs1 : FS)
    (r : AtomicSaveOutcome)
    (h : atomicSave jsonEncode gzipC jsonDecode gzipD vs finalPath fs = (fs1, r)) :
    (r ≠ AtomicSaveOutcome.ok →
      fs1 finalPath = fs finalPath ∧ fs1 (tempPathOf finalPath) = none) ∧
    (r = AtomicSaveOutcome.ok →
      fs1 finalPath =
        some (savedBytes jsonEncode gzipC vs (tempPathOf finalPath)) ∧
      fs1 (tempPathOf finalPath) = none) ∧
    (fs1 finalPath ≠ fs finalPath → r = AtomicSaveOutcome.ok) := by
  have hne : finalPath ≠ tempPathOf finalPath :=
    fun hh => tempPathOf_ne finalPath hh.symm
  have hne2 : tempPathOf finalPath ≠ finalPath := tempPathOf_ne finalPath
  cases hload : VectorStore.LoadFS jsonDecode gzipD (tempPathOf finalPath)
      (vs.SaveFS jsonEncode gzipC (tempPathOf finalPath) fs) with
  | none =>
    simp only [atomicSave, hload] at h
    injection h with h1 h2
    subst h1
    subst h2
    refine ⟨?_, ?_, ?_⟩
    · intro _
      constructor
      · simp [fsRemove, VectorStore.SaveFS, fsWrite, hne]
      · simp [fsRemove]
    · intro hh
      exact absurd hh (by decide)
    · intro hneq
      exfalso
      apply hneq
      simp [fsRemove, VectorStore.SaveFS, fsWrite, hne]
  | some testVs =>
    by_cases hcount : testVs.Chunks.length ≠ vs.Chunks.length
    · simp only [atomicSave, hload, if_pos hcount] at h
      injection h with h1 h2
      subst h1
      subst h2
      refine ⟨?_, ?_, ?_⟩
      · intro _
        constructor
        · simp [fsRemove, VectorStore.SaveFS, fsWrite, hne]
        · simp [fsRemove]
      · intro hh
        exact absurd hh (by decide)
      · intro hneq
        exfalso
        apply hneq
        simp [fsRemove, VectorStore.SaveFS, fsWrite, hne]
    · simp only [atomicSave, hload, if_neg hcount] at h
      injection h with h1 h2
      subst h1
      subst h2
      refine ⟨?_, ?_, ?_⟩
      · intro hh
        exact absurd rfl hh
      · intro _
        constructor
        · simp [fsRename, VectorStore.SaveFS, fsWrite]
        · simp [fsRename, hne2]
      · intro _
        rfl

/-- C1 witness: with a decoder that always fails, `atomicSave` over an
empty filesystem reports a non-ok outcome, leaves the (absent) final file
absent, and deletes the temp file. -/
theorem atomicSave_validation_atomicity_witness :
    (atomicSave constEncode (fun d => d) failDecode failGunzip NewVectorStore
        (str "a.lrindex") emptyFS).2 ≠ AtomicSaveOutcome.ok ∧
    (atomicSave constEncode (fun d => d) failDecode failGunzip NewVectorStore
        (str "a.lrindex") emptyFS).1 (str "a.lrindex") = none ∧
    (atomicSave constEncode (fun d => d) failDecode failGunzip NewVectorStore
        (str "a.lrindex") emptyFS).1 (tempPathOf (str "a.lrindex")) = none := by
  have h := atomicSave_validation_atomicity constEncode (fun d => d) failDecode
    failGunzip NewVectorStore (str "a.lrindex") emptyFS
    (atomicSave constEncode (fun d => d) failDecode failGunzip NewVectorStore
      (str "a.lrindex") emptyFS).1
    (atomicSave constEncode (fun d => d) failDecode failGunzip NewVectorStore
      (str "a.lrindex") emptyFS).2 rfl
  have hr : (atomicSave constEncode (fun d => d) failDecode failGunzip
      NewVectorStore (str "a.lrindex") emptyFS).2 ≠ AtomicSaveOutcome.ok := by
    decide
  obtain ⟨hfin, htemp⟩ := h.1 hr
  exact ⟨hr, hfin.trans rfl, htemp⟩

-- ===== C3 =====

/-- C3: persistence round-trip.  Assuming the JSON collaborator
round-trips the store, the gzip collaborator round-trips the JSON bytes,
and the JSON bytes do not begin with the gzip magic bytes, `Save` then
`Load` on the same path — the gzip-compressed `.lrindex` form and the
uncompressed legacy form alike, with Load auto-detecting compression by
suffix or magic-byte sniffing — yields a store with identical Chunks,
exact-equal Embeddings, and identical Metadata. -/
theorem save_load_roundtrip (jsonEncode : VectorStore → Bytes)
    (gzipC : Bytes → Bytes) (jsonDecode : Bytes → Option VectorStore)
    (gzipD : Bytes → Option Bytes) (vs : VectorStore) (path : Str) (fs : FS)
    (hjson : jsonDecode (jsonEncode vs) = some vs)
    (hgzip : gzipD (gzipC (jsonEncode vs)) = some (jsonEncode vs))
    (hmagic : ∀ b0 b1 rest, jsonEncode vs = b0 :: b1 :: rest →
      ¬ (b0 = 31 ∧ b1 = 139)) :
    ∃ vs2, VectorStore.LoadFS jsonDecode gzipD path
        (vs.SaveFS jsonEncode gzipC path fs) = some vs2 ∧
      vs2.Chunks = vs.Chunks ∧ vs2.Embeddings = vs.Embeddings ∧
      vs2.Metadata = vs.Metadata := by
  refine ⟨vs, ?_, rfl, rfl, rfl⟩
  by_cases hsuf : lrSuffix.isSuffixOf path = true
  · simp [VectorStore.LoadFS, VectorStore.SaveFS, fsWrite, savedBytes, hsuf,
      hgzip, hjson]
  · cases henc : jsonEncode vs with
    | nil =>
      rw [henc] at hjson
      simp [VectorStore.LoadFS, VectorStore.SaveFS, fsWrite, savedBytes, hsuf,
        henc, hjson]
    | cons b0 t =>
      cases t with
      | nil =>
        rw [henc] at hjson
        simp [VectorStore.LoadFS, VectorStore.SaveFS, fsWrite, savedBytes,
          hsuf, henc, hjson]
      | cons b1 rest =>
        have hm := hmagic b0 b1 rest henc
        rw [henc] at hjson
        simp [VectorStore.LoadFS, VectorStore.SaveFS, fsWrite, savedBytes,
          hsuf, henc, hjson, hm]

/-- C3 witness: with concrete collaborators satisfying the three
contracts, the round-trip succeeds on both a `.lrindex` path and a legacy
`.json` path. -/
theorem save_load_roundtrip_witness :
    (∃ vs2, VectorStore.LoadFS constDecode magicGunzip (str "a.lrindex")
        (VectorStore.SaveFS constEncode magicGzip NewVectorStore
          (str "a.lrindex") emptyFS) = some vs2 ∧
      vs2.Chunks = NewVectorStore.Chunks ∧
      vs2.Embeddings = NewVectorStore.Embeddings ∧
      vs2.Metadata = NewVectorStore.Metadata) ∧
    (∃ vs2, VectorStore.LoadFS constDecode magicGunzip (str "a.json")
        (VectorStore.SaveFS constEncode magicGzip NewVectorStore
          (str "a.json") emptyFS) = some vs2 ∧
      vs2.Chunks = NewVectorStore.Chunks ∧
      vs2.Embeddings = NewVectorStore.Embeddings ∧
      vs2.Metadata = NewVectorStore.Metadata) :=
  ⟨save_load_roundtrip constEncode magicGzip constDecode magicGunzip
      NewVectorStore (str "a.lrindex") emptyFS rfl rfl
      (by intro b0 b1 rest h; simp [constEncode] at h),
   save_load_roundtrip constEncode magicGzip constDecode magicGunzip
      NewVectorStore (str "a.json") emptyFS rfl rfl
      (by intro b0 b1 rest h; simp [constEncode] at h)⟩

-- ===== C4 =====

theorem search_length (vs : VectorStore) (q : List ℝ) (k : Nat)
    (h : vs.Chunks.length = vs.Embeddings.length) :
    (vs.Search q k).length = min k vs.Chunks.length := by
  simp only [VectorStore.Search]
  rw [List.length_take, (List.perm_insertionSort simGE _).length_eq,
    List.length_map, List.length_zip, ← h, min_self]

theorem search_sorted (vs : VectorStore) (q : List ℝ) (k : Nat) :
    List.Sorted simGE (vs.Search q k) := by
  simp only [VectorStore.Search]
  exact List.Pairwise.sublist (List.take_sublist _ _)
    (List.sorted_insertionSort _ _)

theorem cosineSimilarity_dim_mismatch (a b : List ℝ)
    (h : a.length ≠ b.length) : cosineSimilarity a b = 0 := by
  rw [cosineSimilarity, if_pos h]

theorem cosineSimilarity_zero_norm (a b : List ℝ)
    (h : sumSquares a = 0 ∨ sumSquares b = 0) : cosineSimilarity a b = 0 := by
  rw [cosineSimilarity]
  by_cases hl : a.length ≠ b.length
  · rw [if_pos hl]
  · rw [if_neg hl, if_pos h]

theorem cos_parallel : cosineSimilarity [(1 : ℝ), 0] [1, 0] = 1 := by
  rw [cosineSimilarity]
  norm_num [sumSquares, dotProduct, Real.sqrt_one]

theorem cos_orthogonal : cosineSimilarity [(1 : ℝ), 0] [0, 1] = 0 := by
  rw [cosineSimilarity]
  norm_num [sumSquares, dotProduct, Real.sqrt_one]

theorem search_example :
    VectorStore.Search
      { Chunks := [{ Text := str "A", Source := str "A", Metadata := [] },
                   { Text := str "B", Source := str "B", Metadata := [] },
                   { Text := str "C", Source := str "C", Metadata := [] }],
        Embeddings := [[1, 0], [0, 1], [1, 0]],
        Metadata := VectorStoreMetadata.empty } [1, 0] 2 =
      [{ Chunk := { Text := str "A", Source := str "A", Metadata := [] },
         Similarity := 1 },
       { Chunk := { Text := str "C", Source := str "C", Metadata := [] },
         Similarity := 1 }] := by
  simp only [VectorStore.Search, List.zip, List.zipWith, List.map]
  rw [cos_parallel, cos_orthogonal]
  simp only [List.insertionSort, List.orderedInsert]
  norm_num [simGE]

/-- C4: `VectorStore.Search` postcondition.  Cosine similarity is 0 when
the dimensions differ and when either vector's norm is 0; for every aligned
store and every `topK`, Search returns exactly `min(topK, chunk count)`
results; the returned list is ordered by non-increasing similarity; and on
the stored vectors A=[1,0], B=[0,1], C=[1,0] with query [1,0],
`Search(query, 2)` returns A and C with similarity 1 and excludes B, whose
similarity is 0. -/
theorem search_postcondition :
    (∀ a b : List ℝ, a.length ≠ b.length → cosineSimilarity a b = 0) ∧
    (∀ a b : List ℝ, sumSquares a = 0 ∨ sumSquares b = 0 →
      cosineSimilarity a b = 0) ∧
    (∀ (vs : VectorStore) (q : List ℝ) (k : Nat),
      vs.Chunks.length = vs.Embeddings.length →
      (vs.Search q k).length = min k vs.Chunks.length) ∧
    (∀ (vs : VectorStore) (q : List ℝ) (k : Nat),
      List.Sorted simGE (vs.Search q k)) ∧
    (VectorStore.Search
      { Chunks := [{ Text := str "A", Source := str "A", Metadata := [] },
                   { Text := str "B", Source := str "B", Metadata := [] },
                   { Text := str "C", Source := str "C", Metadata := [] }],
        Embeddings := [[1, 0], [0, 1], [1, 0]],
        Metadata := VectorStoreMetadata.empty } [1, 0] 2 =
      [{ Chunk := { Text := str "A", Source := str "A", Metadata := [] },
         Similarity := 1 },
       { Chunk := { Text := str "C", Source := str "C", Metadata := [] },
         Similarity := 1 }]) ∧
    cosineSimilarity [(1 : ℝ), 0] [0, 1] = 0 :=
  ⟨cosineSimilarity_dim_mismatch, cosineSimilarity_zero_norm, search_length,
   search_sorted, search_example, cos_orthogonal⟩

/-- C4 witness: on the three-vector example store, Search with `topK = 2`
returns exactly 2 results, via the length clause of the claim theorem. -/
theorem search_postcondition_witness :
    (VectorStore.Search
      { Chunks := [{ Text := str "A", Source := str "A", Metadata := [] },
                   { Text := str "B", Source := str "B", Metadata := [] },
                   { Text := str "C", Source := str "C", Metadata := [] }],
        Embeddings := [[1, 0], [0, 1], [1, 0]],
        Metadata := VectorStoreMetadata.empty } [1, 0] 2).length = 2 :=
  (search_postcondition.2.2.1
    { Chunks := [{ Text := str "A", Source := str "A", Metadata := [] },
                 { Text := str "B", Source := str "B", Metadata := [] },
                 { Text := str "C", Source := str "C", Metadata := [] }],
      Embeddings := [[1, 0], [0, 1], [1, 0]],
      Metadata := VectorStoreMetadata.empty } [1, 0] 2 rfl).trans (by norm_num)

-- ===== C6 =====

theorem min_sum_min {α : Type} (k : Nat) (f : α → Nat) (ns : List α) :
    min k ((ns.map (fun x => min k (f x))).sum) = min k ((ns.map f).sum) := by
  induction ns with
  | nil => rfl
  | cons a t ih =>
    simp only [List.map_cons, List.sum_cons]
    omega

theorem msSearch_length (m : SourcesMap) (q : List ℝ) (k : Nat)
    (names : List Str)
    (h : ∀ kv ∈ m, (kv : Str × VectorStore).2.Chunks.length =
      kv.2.Embeddings.length) :
    (msSearch m q k names).length =
      min k (((searchedNames m names).map (fun nm =>
        match lookupStore m nm with
        | some vs => vs.Chunks.length
        | none => 0)).sum) := by
  simp only [msSearch]
  rw [List.length_take, (List.perm_insertionSort simGE _).length_eq,
    List.length_flatMap]
  rw [← min_sum_min k (fun nm =>
    match lookupStore m nm with
    | some vs => vs.Chunks.length
    | none => 0) (searchedNames m names)]
  congr 1
  congr 1
  apply List.map_congr_left
  intro nm hnm
  simp only [Function.comp_apply]
  have hsome : (lookupStore m nm).isSome = true :=
    (List.mem_filter.mp hnm).2
  cases hlk : lookupStore m nm with
  | none => rw [hlk] at hsome; cases hsome
  | some vs =>
    simp only [hlk]
    rcases Option.map_eq_some'.mp hlk with ⟨kv, hfind, hkv2⟩
    have hmem := List.mem_of_find?_eq_some hfind
    have halign : vs.Chunks.length = vs.Embeddings.length := by
      rw [← hkv2]
      exact h kv hmem
    rw [List.length_map, search_length vs q k halign]

theorem msSearch_sorted (m : SourcesMap) (q : List ℝ) (k : Nat)
    (names : List Str) : List.Sorted simGE (msSearch m q k names) := by
  simp only [msSearch]
  exact List.Pairwise.sublist (List.take_sublist _ _)
    (List.sorted_insertionSort _ _)

/-- C6: `MultiSourceStore.Search` global top-k.  For aligned stores the
result count is exactly `min(topK, total chunks across the searched
sources)` — top-k is global, not per source; results are globally sorted by
non-increasing similarity; an empty names list searches every loaded
source; and every searched name is present in the store map (unknown names
are silently skipped). -/
theorem msSearch_global_topk :
    (∀ (m : SourcesMap) (q : List ℝ) (k : Nat) (names : List Str),
      (∀ kv ∈ m, (kv : Str × VectorStore).2.Chunks.length =
        kv.2.Embeddings.length) →
      (msSearch m q k names).length =
        min k (((searchedNames m names).map (fun nm =>
          match lookupStore m nm with
          | some vs => vs.Chunks.length
          | none => 0)).sum)) ∧
    (∀ (m : SourcesMap) (q : List ℝ) (k : Nat) (names : List Str),
      List.Sorted simGE (msSearch m q k names)) ∧
    (∀ m : SourcesMap, searchedNames m [] =
      (m.map (fun kv => kv.1)).filter (fun nm => (lookupStore m nm).isSome)) ∧
    (∀ (m : SourcesMap) (names : List Str) (nm : Str),
      nm ∈ searchedNames m names → (lookupStore m nm).isSome = true) :=
  ⟨fun m q k names h => msSearch_length m q k names h,
   msSearch_sorted,
   fun _ => rfl,
   fun _ _ _ hnm => (List.mem_filter.mp hnm).2⟩

/-- C6 witness: three ten-chunk sources searched with `topK = 5` return
exactly 5 globally-ranked results, not 5 per source. -/
theorem msSearch_global_topk_witness :
    (msSearch
      [(str "s1", { Chunks := List.replicate 10 { Text := str "x", Source := str "x", Metadata := [] },
                    Embeddings := List.replicate 10 [(1 : ℝ)],
                    Metadata := VectorStoreMetadata.empty }),
       (str "s2", { Chunks := List.replicate 10 { Text := str "x", Source := str "x", Metadata := [] },
                    Embeddings := List.replicate 10 [(1 : ℝ)],
                    Metadata := VectorStoreMetadata.empty }),
       (str "s3", { Chunks := List.replicate 10 { Text := str "x", Source := str "x", Metadata := [] },
                    Embeddings := List.replicate 10 [(1 : ℝ)],
                    Metadata := VectorStoreMetadata.empty })]
      [1] 5 []).length = 5 :=
  (msSearch_global_topk.1
    [(str "s1", { Chunks := List.replicate 10 { Text := str "x", Source := str "x", Metadata := [] },
                  Embeddings := List.replicate 10 [(1 : ℝ)],
                  Metadata := VectorStoreMetadata.empty }),
     (str "s2", { Chunks := List.replicate 10 { Text := str "x", Source := str "x", Metadata := [] },
                  Embeddings := List.replicate 10 [(1 : ℝ)],
                  Metadata := VectorStoreMetadata.empty }),
     (str "s3", { Chunks := List.replicate 10 { Text := str "x", Source := str "x", Metadata := [] },
                  Embeddings := List.replicate 10 [(1 : ℝ)],
                  Metadata := VectorStoreMetadata.empty })]
    [1] 5 []
    (by
      intro kv hkv
      simp only [List.mem_cons, List.not_mem_nil, or_false] at hkv
      rcases hkv with rfl | rfl | rfl <;> simp)).trans (by decide)

-- ===== C10 =====

/-- C10: `MultiSourceStore.Search` is not read-only on the stores.  Under
reference semantics, searching a store whose chunk has a non-nil metadata
map writes the `"vector_source"` tag through the shared map reference: after
the search, the stored chunk's metadata map contains `"vector_source"`,
which it did not before.  This exhibits the aliasing mutation at a concrete
input; the spec declares chunks immutable and the aggregator query-only. -/
theorem msSearchH_mutates_metadata :
    mapGet (((msSearchH
        { next := 1, get := fun _ => [(str "source", str "a.md")] }
        [(str "s",
          { Chunks := [{ Text := str "hello", Source := str "a.md",
                         Metadata := some 0 }],
            Embeddings := [[1]] })]
        [1] 1 []).1).get 0) (str "vector_source") = some (str "s") ∧
    mapGet (({ next := 1, get := fun _ => [(str "source", str "a.md")] } :
        Heap).get 0) (str "vector_source") = none :=
  ⟨by decide, by decide⟩


end LR
